import Mathlib

/-!
Verification of `metasrc/tex/normalizer.py` (lsst-sqre/metaget).

The source file defines five functions over Python strings:

* `remove_comments`           — `re.sub(r'(?<!\\)%.*$', '', s, flags=re.M)`
* `remove_trailing_whitespace`— `re.sub(r'[ \t]+$', '', s, flags=re.M)`
* `read_tex_file`             — reads a file, strips comments and trailing
  whitespace, then recursively inlines `\input`/`\include` references
* `process_inputs`            — `input_include_pattern.sub(_sub_line, s)` where
  `_sub_line` resolves the referenced file with `read_tex_file`
* `replace_macros`            — for each macro-table entry, `re.sub` of the
  escaped macro name followed by an optional trailing backslash

Text is embedded as `List Char`.  Multiline regex substitution is modelled
line by line (a match of either regex never crosses a `'\n'` and `$` in
`re.M` mode matches exactly before each `'\n'` and at the end).  The
filesystem is a finite association list from absolute normalized paths to
file contents; `open` never blocks, so file reading is a pure lookup and a
failed lookup models the `IOError` raised by `open`.  Unbounded include
recursion is cut by a fuel parameter; exhausted fuel is reported as a
separate outcome, distinct from both success and a read failure.

Recursions that advance by a computed amount (regex scans) carry an extra
`Nat` bound that starts at the text length, so that every function is
structurally recursive and computes by `rfl`/`decide`; lemmas below show the
bound is irrelevant once it dominates the text length.
-/

/-- ASCII model of the `re` class `\w` (letters, digits, underscore). -/
def isWordChar (c : Char) : Bool :=
  c.isAlphanum || c == '_'

/-- The filename character class `[\w/\-\.]` of `input_include_pattern`. -/
def isFnameChar (c : Char) : Bool :=
  isWordChar c || c == '/' || c == '-' || c == '.'

/-- ASCII model of the `re` class `\s`. -/
def isSpaceChar (c : Char) : Bool :=
  c == ' ' || c == '\t' || c == '\n' || c == '\r' || c == '\x0b' || c == '\x0c'

/-- The terminator class `[\}%\s]` of `input_include_pattern`. -/
def isTermChar (c : Char) : Bool :=
  c == '}' || c == '%' || isSpaceChar c

/-- Split a character list at every occurrence of `sep`, like Python's
`str.split(sep)`: `splitOnC '/' "a/b"` is `["a", "b"]`, and the result is
never empty. -/
def splitOnC (sep : Char) : List Char → List (List Char)
  | [] => [[]]
  | c :: cs =>
    if c = sep then
      [] :: splitOnC sep cs
    else
      match splitOnC sep cs with
      | [] => [[c]]
      | l :: ls => (c :: l) :: ls

/-- Join pieces with a single `sep` between consecutive pieces, like
Python's `sep.join(...)`; inverse of `splitOnC`. -/
def joinWith (sep : Char) : List (List Char) → List Char
  | [] => []
  | [l] => l
  | l :: l' :: ls => l ++ sep :: joinWith sep (l' :: ls)

/-- One line of `remove_comments`: delete from the first unescaped `'%'` to
the end of the line.  `prev` is the character just before the current suffix
(`none` at the start of a line); the lookbehind `(?<!\\)` consults it. -/
def stripCommentAux : Option Char → List Char → List Char
  | _, [] => []
  | prev, c :: cs =>
    if c = '%' ∧ prev ≠ some '\\' then []
    else c :: stripCommentAux (some c) cs

/-- `remove_comments` restricted to a single line. -/
def stripLine (l : List Char) : List Char :=
  stripCommentAux none l

/-- `remove_comments(tex_source)`: `re.sub(r'(?<!\\)%.*$', '', s, re.M)`.
In multiline mode `%.*$` matches from an unescaped `'%'` to the character
before the next `'\n'` (or the end), so the substitution acts on each
`'\n'`-separated line independently. -/
def remove_comments (tex_source : List Char) : List Char :=
  joinWith '\n' ((splitOnC '\n' tex_source).map stripLine)

/-- The class `[ \t]` of `remove_trailing_whitespace`. -/
def isHWS (c : Char) : Bool :=
  c == ' ' || c == '\t'

/-- `remove_trailing_whitespace` restricted to a single line: drop the
maximal run of spaces and tabs at the end. -/
def trimLine (l : List Char) : List Char :=
  (l.reverse.dropWhile isHWS).reverse

/-- `remove_trailing_whitespace(tex_source)`:
`re.sub(r'[ \t]+$', '', s, re.M)`, acting on each line independently. -/
def remove_trailing_whitespace (tex_source : List Char) : List Char :=
  joinWith '\n' ((splitOnC '\n' tex_source).map trimLine)

/-- `posixpath.join(a, b)` for two components (CPython `posixpath.join`). -/
def posixJoin (a b : List Char) : List Char :=
  if b.take 1 = ['/'] then b
  else if a = [] ∨ a.getLast? = some '/' then a ++ b
  else a ++ '/' :: b

/-- `posixpath.normpath(path)` (CPython): collapse repeated slashes and
`.`/`..` components, preserving the special leading-`//` case. -/
def normpath (p : List Char) : List Char :=
  if p = [] then ['.']
  else
    let slashes : List Char :=
      if p.take 2 = ['/', '/'] ∧ p.take 3 ≠ ['/', '/', '/'] then ['/', '/']
      else if p.take 1 = ['/'] then ['/']
      else []
    let comps := (splitOnC '/' p).filter (fun c => decide (c ≠ [] ∧ c ≠ ['.']))
    let stack := comps.foldl
      (fun acc comp =>
        if comp ≠ ['.', '.'] ∨ (slashes = [] ∧ acc = []) ∨ acc.head? = some ['.', '.']
        then comp :: acc
        else acc.tail)
      []
    let r := slashes ++ joinWith '/' stack.reverse
    if r = [] then ['.'] else r

/-- `os.path.abspath(p)` on a POSIX system: join a relative path onto the
working directory, then normalize. -/
def absPath (cwd p : List Char) : List Char :=
  normpath (if p.take 1 = ['/'] then p else posixJoin cwd p)

/-- `os.path.dirname(p)` (CPython `posixpath.dirname`): everything up to the
last `'/'`, with trailing slashes stripped unless the result is all
slashes. -/
def dirname (p : List Char) : List Char :=
  let head := (p.reverse.dropWhile (fun c => !(c == '/'))).reverse
  if head ≠ [] ∧ ¬ head.all (fun c => c == '/') then
    (head.reverse.dropWhile (fun c => c == '/')).reverse
  else head

/-- `str.endswith('.tex')`. -/
def endsWithTex (l : List Char) : Bool :=
  l.reverse.take 4 == ['x', 'e', 't', '.']

/-- Outcome of resolving a TeX file: the flattened source, an `IOError`
(`FileAccessError`) carrying the path passed to `open`, or exhausted
recursion fuel.  An error outcome carries no partial text. -/
inductive Res where
  | ok : List Char → Res
  | err : List Char → Res
  | fuelOut : Res
deriving DecidableEq

/-- Sequence two resolution outcomes left to right, concatenating texts; the
leftmost failure aborts the whole resolution, as a raised exception does. -/
def Res.append : Res → Res → Res
  | .ok s, .ok t => .ok (s ++ t)
  | .ok _, .err p => .err p
  | .ok _, .fuelOut => .fuelOut
  | .err p, _ => .err p
  | .fuelOut, _ => .fuelOut

/-- Match the part of `input_include_pattern` after the command name against
a text suffix: `[ ]*?` (spaces), `{*?` (opening braces), a nonempty run of
filename characters, then one terminator character (consumed).  Returns the
captured filename and the rest of the text after the whole match.  The
lazy quantifiers are forced: a space is neither `'{'` nor a filename
character and a `'{'` is not a filename character, so each star consumes
exactly its maximal run, and the filename run cannot backtrack because no
filename character is a terminator. -/
def matchFname (s2 : List Char) : Option (List Char × List Char) :=
  match s2.takeWhile isFnameChar, s2.dropWhile isFnameChar with
  | [], _ => none
  | _ :: _, [] => none
  | f :: fs, t :: rest => if isTermChar t then some (f :: fs, rest) else none

/-- `matchCore`: skip the optional spaces and opening braces, then match the
filename and its terminator with `matchFname`. -/
def matchCore (cs : List Char) : Option (List Char × List Char) :=
  matchFname ((cs.dropWhile (fun c => c == ' ')).dropWhile (fun c => c == '{'))

/-- Match `input_include_pattern` at the head of the text: a backslash, the
command `input` or `include` (the alternation is deterministic), then
`matchCore`.  Returns the captured filename and the text after the match. -/
def matchAt : List Char → Option (List Char × List Char)
  | '\\' :: cs =>
    if cs.take 5 = ['i', 'n', 'p', 'u', 't'] then matchCore (cs.drop 5)
    else if cs.take 7 = ['i', 'n', 'c', 'l', 'u', 'd', 'e'] then matchCore (cs.drop 7)
    else none
  | _ => none

/-- Whether `input_include_pattern` matches anywhere in the text. -/
def hasMatch : List Char → Bool
  | [] => false
  | c :: cs => (matchAt (c :: cs)).isSome || hasMatch cs

/-- The scan of `input_include_pattern.sub(repl, text)`: walk left to right;
at the leftmost match replace the whole matched span by `resolve fname` and
continue after the match (spliced text is never re-scanned); any failure of
`resolve` propagates.  The `Nat` bound only makes the recursion structural;
it never runs out while it dominates the text length. -/
def scanSubB (resolve : List Char → Res) : Nat → List Char → Res
  | _, [] => .ok []
  | 0, l => .ok l
  | b + 1, c :: cs =>
    match matchAt (c :: cs) with
    | some (fname, rest) => Res.append (resolve fname) (scanSubB resolve b rest)
    | none => Res.append (.ok [c]) (scanSubB resolve b cs)

/-- The environment of a resolution run: the process working directory and
a finite filesystem mapping absolute normalized paths to file contents. -/
structure Env where
  cwd : List Char
  fs : List (List Char × List Char)

/-- Look a path up in the filesystem. -/
def lookupFS (p : List Char) : List (List Char × List Char) → Option (List Char)
  | [] => none
  | (q, c) :: rest => if p = q then some c else lookupFS p rest

/-- `read_tex_file(root_filepath, root_dir)`: open the file (the operating
system resolves the path against the working directory; a failed open
raises `IOError`, modelled by `Res.err` carrying the path handed to
`open`), derive `root_dir` from the file's directory when unset, strip
comments, trim trailing whitespace, then run `process_inputs`: for each
directive match, append `.tex` unless the filename already ends in it, join
onto `root_dir`, make the path absolute, and recursively read that file
with the same `root_dir`, splicing the result in place of the match. -/
def read_tex_file (env : Env) : Nat → List Char → Option (List Char) → Res
  | 0, _, _ => .fuelOut
  | fuel + 1, path, rootDirOpt =>
    match lookupFS (absPath env.cwd path) env.fs with
    | none => .err path
    | some content =>
      let rootDir := rootDirOpt.getD (dirname path)
      let processed := remove_trailing_whitespace (remove_comments content)
      scanSubB
        (fun fname =>
          let fullFname := if endsWithTex fname then fname else fname ++ ['.', 't', 'e', 'x']
          let fullPath := absPath env.cwd (posixJoin rootDir fullFname)
          read_tex_file env fuel fullPath (some rootDir))
        processed.length processed

/-- `process_inputs(tex_source, root_dir)`: one substitution pass of
`input_include_pattern.sub(_sub_line, tex_source)`, where `_sub_line`
resolves the captured filename with `read_tex_file` at the given fuel. -/
def process_inputs (env : Env) (fuel : Nat) (rootDir : List Char) (text : List Char) : Res :=
  scanSubB
    (fun fname =>
      let fullFname := if endsWithTex fname then fname else fname ++ ['.', 't', 'e', 'x']
      let fullPath := absPath env.cwd (posixJoin rootDir fullFname)
      read_tex_file env fuel fullPath (some rootDir))
    text.length text

/-- `re.sub` for the degenerate pattern `\\?` of an empty macro name: every
position yields a match (a lone backslash, otherwise the empty string), so
the content is inserted at every position and each backslash is consumed. -/
def subEmptyName (content : List Char) : List Char → List Char
  | [] => content
  | '\\' :: cs => content ++ subEmptyName content cs
  | c :: cs => content ++ c :: subEmptyName content cs

/-- `re.sub(re.escape(name) + r"\\?", lambda x: content, text)` for a
nonempty macro name `n :: ns`: replace every non-overlapping occurrence of
the literal name, consuming one immediately following backslash when
present; the replacement content is inserted literally.  The `Nat` bound
only makes the recursion structural. -/
def subMacroB (n : Char) (ns content : List Char) : Nat → List Char → List Char
  | _, [] => []
  | 0, l => l
  | b + 1, c :: cs =>
    if c = n ∧ cs.take ns.length = ns then
      let rest := cs.drop ns.length
      let rest2 := if rest.take 1 = ['\\'] then rest.drop 1 else rest
      content ++ subMacroB n ns content b rest2
    else c :: subMacroB n ns content b cs

/-- One iteration of the `replace_macros` loop: substitute a single macro. -/
def subMacro (name content text : List Char) : List Char :=
  match name with
  | [] => subEmptyName content text
  | n :: ns => subMacroB n ns content text.length text

/-- `replace_macros(tex_source, macros)`: fold the substitution of each
table entry over the text, in table order; each entry's pass runs on the
result of the previous one. -/
def replace_macros (tex_source : List Char) (macros : List (List Char × List Char)) : List Char :=
  macros.foldl (fun t p => subMacro p.1 p.2 t) tex_source

/-- Whether `pat` occurs as a contiguous substring of the text. -/
def isSubstr : List Char → List Char → Bool
  | pat, [] => pat.isEmpty
  | pat, c :: cs => pat == (c :: cs).take pat.length || isSubstr pat cs

/-- Position `j` of line `l` holds a comment marker `'%'` that the
lookbehind `(?<!\\)` accepts: it is at the line start or not immediately
preceded by a backslash. -/
def unescapedPct (l : List Char) (j : Nat) : Prop :=
  l.get? j = some '%' ∧ (j = 0 ∨ l.get? (j - 1) ≠ some '\\')

/-- Generalization of `unescapedPct` to a suffix of a line whose preceding
character is `prev` (`none` at the line start). -/
def unescAux (prev : Option Char) (l : List Char) (j : Nat) : Prop :=
  l.get? j = some '%' ∧ (if j = 0 then prev ≠ some '\\' else l.get? (j - 1) ≠ some '\\')

/-- `remove_comments` at the `String` level. -/
def removeCommentsS (s : String) : String :=
  String.mk (remove_comments s.data)

/-- `remove_trailing_whitespace` at the `String` level. -/
def removeTrailingWhitespaceS (s : String) : String :=
  String.mk (remove_trailing_whitespace s.data)

/-- `replace_macros` at the `String` level. -/
def replaceMacrosS (tex_source : String) (macros : List (String × String)) : String :=
  String.mk (replace_macros tex_source.data (macros.map (fun p => (p.1.data, p.2.data))))

/-- Environment of the worked instance for the inclusion-step theorem: one
project file `/r/a.tex` holding the literal text `X`. -/
def envC1 : Env :=
  ⟨"/".data, [("/r/a.tex".data, "X".data)]⟩

/-- Environment with an empty filesystem: every read fails. -/
def envC2 : Env :=
  ⟨"/".data, []⟩

/-- Environment whose root file nests one directive inside the filename
braces of another: `/r/main.tex` holds `\input{\input{a}}` and `/r/a.tex`
holds `x`. -/
def envC4 : Env :=
  ⟨"/".data,
    [("/r/main.tex".data, "\\input\x7b\\input\x7ba\x7d\x7d".data),
     ("/r/a.tex".data, "x".data)]⟩

/-- Environment of the worked instance for the leftmost-replacement
theorem. -/
def envC4w : Env :=
  ⟨"/".data, [("/w/b.tex".data, "Y".data)]⟩

/-- Environment of the worked round-trip instance: a root file with a
comment and trailing whitespace but no inclusion directive. -/
def envC5 : Env :=
  ⟨"/".data, [("/m.tex".data, "hi % there".data)]⟩

example : removeCommentsS "a \\% b % c" = "a \\% b " := by decide

example : replaceMacrosS "This is document \\handle." [("\\handle", "LDM-nnn")] =
    "This is document LDM-nnn." := by decide

example : replaceMacrosS "\x7b \\product\\ Test Plan\x7d" [("\\product", "Data Management")] =
    "\x7b Data Management Test Plan\x7d" := by decide

example : replaceMacrosS "\\hb" [("\\h", "X")] = "Xb" := by decide

example :
    read_tex_file ⟨"/".data, [("/r/main.tex".data, "hi % there".data)]⟩ 2
      "/r/main.tex".data none = .ok "hi".data := by decide

example :
    read_tex_file
      ⟨"/".data,
        [("/r/main.tex".data, "A \\input\x7bparts/a\x7d B".data),
         ("/r/parts/a.tex".data, "X".data)]⟩
      3 "/r/main.tex".data none = .ok "A X B".data := by decide

example :
    read_tex_file
      ⟨"/".data,
        [("/r/main.tex".data, "\\input\x7b\\input\x7ba\x7d\x7d".data),
         ("/r/a.tex".data, "x".data)]⟩
      5 "/r/main.tex".data none = .ok "\\input\x7bx\x7d".data := by decide

section ListHelpers

variable {α : Type _}

lemma takeLenApp (a b : List α) : (a ++ b).take a.length = a := by
  induction a with
  | nil => rfl
  | cons x xs ih => simp [ih]

lemma dropLenApp (a b : List α) : (a ++ b).drop a.length = b := by
  induction a with
  | nil => rfl
  | cons x xs ih => simp [ih]

lemma lenDropWhileLe (p : α → Bool) (l : List α) : (l.dropWhile p).length ≤ l.length := by
  induction l with
  | nil => simp [List.dropWhile]
  | cons x xs ih =>
    by_cases h : p x
    · simp only [List.dropWhile_cons, h, if_true]
      exact Nat.le_succ_of_le ih
    · simp [List.dropWhile_cons, h]

lemma memTakeWhile (p : α → Bool) (l : List α) (a : α) (h : a ∈ l.takeWhile p) :
    p a = true := by
  induction l with
  | nil => simp [List.takeWhile] at h
  | cons x xs ih =>
    by_cases hx : p x
    · rw [List.takeWhile_cons, if_pos hx] at h
      rcases List.mem_cons.mp h with h1 | h2
      · exact h1 ▸ hx
      · exact ih h2
    · rw [List.takeWhile_cons, if_neg hx] at h
      simp at h

lemma dropWhileAppendAll (p : α → Bool) (a b : List α) (h : ∀ x ∈ a, p x = true) :
    (a ++ b).dropWhile p = b.dropWhile p := by
  induction a with
  | nil => rfl
  | cons x xs ih =>
    have hx : p x = true := h x (List.mem_cons_self x xs)
    rw [List.cons_append, List.dropWhile_cons, if_pos hx]
    exact ih fun y hy => h y (List.mem_cons_of_mem x hy)

end ListHelpers

lemma matchFname_rest_lt {s2 f rest : List Char} (h : matchFname s2 = some (f, rest)) :
    rest.length < s2.length := by
  unfold matchFname at h
  rcases htw : s2.takeWhile isFnameChar with _ | ⟨a, as⟩ <;>
    rcases hdw : s2.dropWhile isFnameChar with _ | ⟨t, ts⟩ <;>
      rw [htw, hdw] at h <;> simp at h
  obtain ⟨hterm, hf, hrest⟩ := h
  have hlen : (t :: ts).length ≤ s2.length := hdw ▸ lenDropWhileLe isFnameChar s2
  subst hrest
  simpa using hlen

lemma matchCore_rest_lt {cs f rest : List Char} (h : matchCore cs = some (f, rest)) :
    rest.length < cs.length := by
  unfold matchCore at h
  have h1 := matchFname_rest_lt h
  calc rest.length
      < ((cs.dropWhile (fun c => c == ' ')).dropWhile (fun c => c == '{')).length := h1
    _ ≤ (cs.dropWhile (fun c => c == ' ')).length := lenDropWhileLe _ _
    _ ≤ cs.length := lenDropWhileLe _ _

lemma matchAt_rest_lt {l f rest : List Char} (h : matchAt l = some (f, rest)) :
    rest.length < l.length := by
  rw [matchAt.eq_def] at h
  split at h
  next cs =>
    split at h
    · have h1 := matchCore_rest_lt h
      simp only [List.length_drop] at h1
      simp only [List.length_cons]
      omega
    · split at h
      · have h1 := matchCore_rest_lt h
        simp only [List.length_drop] at h1
        simp only [List.length_cons]
        omega
      · simp at h
  next => simp at h

lemma scanSubB_nil (resolve : List Char → Res) (b : Nat) :
    scanSubB resolve b [] = .ok [] := by
  cases b <;> rfl

lemma scanSubB_irrel (resolve : List Char → Res) :
    ∀ b₁ b₂ : Nat, ∀ l : List Char, l.length ≤ b₁ → l.length ≤ b₂ →
      scanSubB resolve b₁ l = scanSubB resolve b₂ l := by
  intro b₁
  induction b₁ with
  | zero =>
    intro b₂ l h1 _
    have hl : l = [] := by cases l with
      | nil => rfl
      | cons c cs => simp at h1
    subst hl
    rw [scanSubB_nil, scanSubB_nil]
  | succ a ih =>
    intro b₂ l h1 h2
    cases l with
    | nil => rw [scanSubB_nil, scanSubB_nil]
    | cons c cs =>
      cases b₂ with
      | zero => simp at h2
      | succ b =>
        simp only [scanSubB]
        cases hm : matchAt (c :: cs) with
        | none =>
          exact congrArg (Res.append (.ok [c]))
            (ih b cs (by simp at h1; omega) (by simp at h2; omega))
        | some pr =>
          obtain ⟨f, rest⟩ := pr
          have hlt := matchAt_rest_lt hm
          simp only [List.length_cons] at hlt h1 h2
          exact congrArg (Res.append (resolve f)) (ih b rest (by omega) (by omega))

lemma scanSubB_nomatch (resolve : List Char → Res) :
    ∀ l : List Char, ∀ b : Nat, hasMatch l = false → l.length ≤ b →
      scanSubB resolve b l = .ok l := by
  intro l
  induction l with
  | nil => intro b _ _; exact scanSubB_nil resolve b
  | cons c cs ih =>
    intro b h hb
    cases b with
    | zero => simp at hb
    | succ b' =>
      cases hm : matchAt (c :: cs) with
      | some pr => simp [hasMatch, hm] at h
      | none =>
        have hcs : hasMatch cs = false := by simp [hasMatch, hm] at h; exact h
        simp only [scanSubB, hm]
        rw [ih b' hcs (by simp at hb; omega)]
        rfl

lemma resAppendEqOk {a b : Res} {o : List Char} (h : Res.append a b = .ok o) :
    ∃ s t, a = .ok s ∧ b = .ok t ∧ o = s ++ t := by
  cases a with
  | ok s =>
    cases b with
    | ok t =>
      refine ⟨s, t, rfl, rfl, ?_⟩
      simpa [Res.append] using h.symm
    | err p => simp [Res.append] at h
    | fuelOut => simp [Res.append] at h
  | err p => simp [Res.append] at h
  | fuelOut => simp [Res.append] at h

lemma read_tex_file_succ (env : Env) (fuel : Nat) (path : List Char)
    (rootDirOpt : Option (List Char)) :
    read_tex_file env (fuel + 1) path rootDirOpt =
      match lookupFS (absPath env.cwd path) env.fs with
      | none => .err path
      | some content =>
        process_inputs env fuel (rootDirOpt.getD (dirname path))
          (remove_trailing_whitespace (remove_comments content)) := rfl

lemma process_inputs_cons_match (env : Env) (fuel : Nat) (rootDir : List Char)
    {c : Char} {cs fname rest : List Char}
    (h : matchAt (c :: cs) = some (fname, rest)) :
    process_inputs env fuel rootDir (c :: cs) =
      Res.append
        (read_tex_file env fuel
          (absPath env.cwd (posixJoin rootDir
            (if endsWithTex fname then fname else fname ++ ['.', 't', 'e', 'x'])))
          (some rootDir))
        (process_inputs env fuel rootDir rest) := by
  unfold process_inputs
  simp only [List.length_cons, scanSubB, h]
  have hlt := matchAt_rest_lt h
  simp only [List.length_cons] at hlt
  rw [scanSubB_irrel _ cs.length rest.length rest (by omega) le_rfl]

lemma process_inputs_cons_nomatch (env : Env) (fuel : Nat) (rootDir : List Char)
    {c : Char} {cs : List Char} (h : matchAt (c :: cs) = none) :
    process_inputs env fuel rootDir (c :: cs) =
      Res.append (.ok [c]) (process_inputs env fuel rootDir cs) := by
  unfold process_inputs
  simp only [List.length_cons, scanSubB, h]

lemma isSubstr_nil (l : List Char) : isSubstr [] l = true := by
  induction l with
  | nil => rfl
  | cons c cs ih => simp [isSubstr, ih]

lemma subMacroB_nil (n : Char) (ns content : List Char) (b : Nat) :
    subMacroB n ns content b [] = [] := by
  cases b <;> rfl

lemma subMacroB_irrel (n : Char) (ns content : List Char) :
    ∀ b₁ b₂ : Nat, ∀ l : List Char, l.length ≤ b₁ → l.length ≤ b₂ →
      subMacroB n ns content b₁ l = subMacroB n ns content b₂ l := by
  intro b₁
  induction b₁ with
  | zero =>
    intro b₂ l h1 _
    have hl : l = [] := by cases l with
      | nil => rfl
      | cons c cs => simp at h1
    subst hl
    rw [subMacroB_nil, subMacroB_nil]
  | succ a ih =>
    intro b₂ l h1 h2
    cases l with
    | nil => rw [subMacroB_nil, subMacroB_nil]
    | cons c cs =>
      cases b₂ with
      | zero => simp at h2
      | succ b =>
        simp only [List.length_cons] at h1 h2
        simp only [subMacroB]
        by_cases hc : (c = n ∧ cs.take ns.length = ns)
        · rw [if_pos hc, if_pos hc]
          have hX : (if (cs.drop ns.length).take 1 = ['\\'] then (cs.drop ns.length).drop 1
              else cs.drop ns.length).length ≤ cs.length := by
            split <;> simp only [List.length_drop] <;> omega
          exact congrArg (fun x => content ++ x)
            (ih b _ (Nat.le_trans hX (by omega)) (Nat.le_trans hX (by omega)))
        · rw [if_neg hc, if_neg hc]
          exact congrArg (fun x => c :: x) (ih b cs (by omega) (by omega))

lemma subMacroB_not_occur (n : Char) (ns content : List Char) :
    ∀ l : List Char, ∀ b : Nat, isSubstr (n :: ns) l = false → l.length ≤ b →
      subMacroB n ns content b l = l := by
  intro l
  induction l with
  | nil => intro b _ _; exact subMacroB_nil n ns content b
  | cons c cs ih =>
    intro b h hb
    cases b with
    | zero => simp at hb
    | succ b' =>
      obtain ⟨h1, h2⟩ : ¬ (n :: ns = c :: cs.take ns.length) ∧ isSubstr (n :: ns) cs = false := by
        simpa [isSubstr, List.take_succ_cons] using h
      have hcond : ¬ (c = n ∧ cs.take ns.length = ns) := by
        rintro ⟨rfl, htk⟩
        exact h1 (by rw [htk])
      simp only [subMacroB, if_neg hcond]
      rw [ih b' h2 (by simp at hb; omega)]

lemma subMacro_not_occur {name : List Char} (content : List Char) {l : List Char}
    (h : isSubstr name l = false) : subMacro name content l = l := by
  cases name with
  | nil => rw [isSubstr_nil] at h; exact absurd h (by simp)
  | cons n ns => exact subMacroB_not_occur n ns content l l.length h le_rfl

lemma replace_macros_not_occur :
    ∀ macros : List (List Char × List Char), ∀ text : List Char,
      (∀ p ∈ macros, isSubstr p.1 text = false) → replace_macros text macros = text := by
  intro macros
  induction macros with
  | nil => intro text _; rfl
  | cons p ps ih =>
    intro text h
    have hp := h p (List.mem_cons_self p ps)
    have step : replace_macros text (p :: ps) = replace_macros (subMacro p.1 p.2 text) ps := rfl
    rw [step, subMacro_not_occur p.2 hp]
    exact ih text fun q hq => h q (List.mem_cons_of_mem p hq)

lemma splitOnC_ne_nil (sep : Char) : ∀ l : List Char, splitOnC sep l ≠ [] := by
  intro l
  cases l with
  | nil => simp [splitOnC]
  | cons c cs =>
    by_cases h : c = sep
    · simp [splitOnC, h]
    · simp only [splitOnC, if_neg h]
      cases hs : splitOnC sep cs <;> simp

lemma joinWith_splitOnC (sep : Char) : ∀ l : List Char, joinWith sep (splitOnC sep l) = l := by
  intro l
  induction l with
  | nil => rfl
  | cons c cs ih =>
    by_cases h : c = sep
    · subst h
      rw [show splitOnC c (c :: cs) = [] :: splitOnC c cs from by simp [splitOnC]]
      cases hs : splitOnC c cs with
      | nil => exact absurd hs (splitOnC_ne_nil c cs)
      | cons r rs =>
        rw [hs] at ih
        show joinWith c ([] :: r :: rs) = c :: cs
        rw [joinWith]
        simpa using ih
    · simp only [splitOnC, if_neg h]
      cases hs : splitOnC sep cs with
      | nil => exact absurd hs (splitOnC_ne_nil sep cs)
      | cons r rs =>
        rw [hs] at ih
        cases rs with
        | nil =>
          show joinWith sep [c :: r] = c :: cs
          rw [joinWith] at ih ⊢
          exact congrArg (fun x => c :: x) ih
        | cons r2 rs2 =>
          show joinWith sep ((c :: r) :: r2 :: rs2) = c :: cs
          rw [joinWith] at ih ⊢
          simp only [List.cons_append]
          exact congrArg (fun x => c :: x) ih

lemma noSep_splitOnC (sep : Char) : ∀ l : List Char, sep ∉ l → splitOnC sep l = [l] := by
  intro l
  induction l with
  | nil => intro _; rfl
  | cons c cs ih =>
    intro h
    have hc : ¬ (c = sep) := fun e => h (by rw [e]; exact List.mem_cons_self _ _)
    simp only [splitOnC, if_neg hc]
    rw [ih (fun hm => h (List.mem_cons_of_mem c hm))]

lemma splitOnC_append_sep (sep : Char) : ∀ l r : List Char, sep ∉ l →
    splitOnC sep (l ++ sep :: r) = l :: splitOnC sep r := by
  intro l
  induction l with
  | nil => intro r _; simp [splitOnC]
  | cons c cl ih =>
    intro r h
    have hc : ¬ (c = sep) := fun e => h (by rw [e]; exact List.mem_cons_self _ _)
    have hstep : splitOnC sep ((c :: cl) ++ sep :: r) = splitOnC sep (c :: (cl ++ sep :: r)) := rfl
    rw [hstep]
    simp only [splitOnC, if_neg hc]
    rw [ih r (fun hm => h (List.mem_cons_of_mem c hm))]

lemma splitOnC_joinWith (sep : Char) : ∀ ls : List (List Char), ls ≠ [] →
    (∀ l ∈ ls, sep ∉ l) → splitOnC sep (joinWith sep ls) = ls := by
  intro ls
  induction ls with
  | nil => intro h; exact absurd rfl h
  | cons l ls2 ih =>
    intro _ h
    cases ls2 with
    | nil =>
      rw [joinWith]
      exact noSep_splitOnC sep l (h l (List.mem_cons_self _ _))
    | cons l2 ls3 =>
      rw [joinWith]
      rw [splitOnC_append_sep sep l _ (h l (List.mem_cons_self _ _))]
      rw [ih (by simp) (fun q hq => h q (List.mem_cons_of_mem l hq))]

lemma mem_splitOnC_sub (sep : Char) : ∀ l piece : List Char, piece ∈ splitOnC sep l →
    ∀ c ∈ piece, c ∈ l := by
  intro l
  induction l with
  | nil =>
    intro piece hp c hc
    simp [splitOnC] at hp
    subst hp
    simp at hc
  | cons a as ih =>
    intro piece hp c hc
    by_cases ha : a = sep
    · rw [show splitOnC sep (a :: as) = [] :: splitOnC sep as from by simp [splitOnC, ha]] at hp
      rcases List.mem_cons.mp hp with h1 | h2
      · subst h1; simp at hc
      · exact List.mem_cons_of_mem a (ih piece h2 c hc)
    · simp only [splitOnC, if_neg ha] at hp
      cases hs : splitOnC sep as with
      | nil => exact absurd hs (splitOnC_ne_nil sep as)
      | cons r rs =>
        rw [hs] at hp
        rcases List.mem_cons.mp hp with h1 | h2
        · subst h1
          rcases List.mem_cons.mp hc with h3 | h4
          · subst h3; exact List.mem_cons_self _ _
          · refine List.mem_cons_of_mem a (ih r ?_ c h4)
            rw [hs]
            exact List.mem_cons_self r rs
        · refine List.mem_cons_of_mem a (ih piece ?_ c hc)
          rw [hs]
          exact List.mem_cons_of_mem r h2

lemma mapSelf {β : Type _} (f : β → β) : ∀ l : List β, (∀ a ∈ l, f a = a) → l.map f = l := by
  intro l
  induction l with
  | nil => intro _; rfl
  | cons x xs ih =>
    intro h
    simp only [List.map_cons]
    rw [h x (List.mem_cons_self _ _), ih (fun a ha => h a (List.mem_cons_of_mem x ha))]

lemma stripCommentAux_no_pct : ∀ l : List Char, ∀ prev : Option Char, '%' ∉ l →
    stripCommentAux prev l = l := by
  intro l
  induction l with
  | nil => intro prev _; rfl
  | cons c cs ih =>
    intro prev h
    have hc : ¬ (c = '%' ∧ prev ≠ some '\\') := by
      rintro ⟨rfl, _⟩
      exact h (List.mem_cons_self _ _)
    simp only [stripCommentAux, if_neg hc]
    rw [ih (some c) (fun hm => h (List.mem_cons_of_mem c hm))]

lemma remove_comments_no_pct {l : List Char} (h : '%' ∉ l) : remove_comments l = l := by
  unfold remove_comments
  rw [mapSelf stripLine (splitOnC '\n' l)
    (fun p hp => stripCommentAux_no_pct p none
      (fun hm => h (mem_splitOnC_sub '\n' l p hp '%' hm)))]
  exact joinWith_splitOnC '\n' l

lemma unescAux_zero (prev : Option Char) (c : Char) (cs : List Char) :
    unescAux prev (c :: cs) 0 ↔ (c = '%' ∧ prev ≠ some '\\') := by
  simp [unescAux]

lemma unescAux_succ (prev : Option Char) (c : Char) (cs : List Char) (j : Nat) :
    unescAux prev (c :: cs) (j + 1) ↔ unescAux (some c) cs j := by
  unfold unescAux
  cases j with
  | zero => simp
  | succ k => simp

lemma unescAux_none_iff (l : List Char) (j : Nat) :
    unescAux none l j ↔ unescapedPct l j := by
  unfold unescAux unescapedPct
  cases j with
  | zero => simp
  | succ k => simp

lemma stripAux_char : ∀ l : List Char, ∀ prev : Option Char,
    ∃ i : Nat, i ≤ l.length ∧ stripCommentAux prev l = l.take i ∧
      (∀ j, j < i → ¬ unescAux prev l j) ∧ (i = l.length ∨ unescAux prev l i) := by
  intro l
  induction l with
  | nil =>
    intro prev
    exact ⟨0, Nat.le_refl 0, rfl, fun j hj => absurd hj (Nat.not_lt_zero j), Or.inl rfl⟩
  | cons c cs ih =>
    intro prev
    by_cases hc : (c = '%' ∧ prev ≠ some '\\')
    · refine ⟨0, Nat.zero_le _, ?_, fun j hj => absurd hj (Nat.not_lt_zero j), Or.inr ?_⟩
      · simp only [stripCommentAux, if_pos hc, List.take_zero]
      · exact (unescAux_zero prev c cs).mpr hc
    · obtain ⟨i, hle, heq, hnone, hend⟩ := ih (some c)
      refine ⟨i + 1, by simpa using Nat.succ_le_succ hle, ?_, ?_, ?_⟩
      · simp only [stripCommentAux, if_neg hc, List.take_succ_cons]
        rw [heq]
      · intro j hj
        cases j with
        | zero =>
          intro hu
          exact hc ((unescAux_zero prev c cs).mp hu)
        | succ k =>
          intro hu
          exact hnone k (Nat.lt_of_succ_lt_succ hj) ((unescAux_succ prev c cs k).mp hu)
      · rcases hend with h1 | h2
        · exact Or.inl (by simp [h1])
        · exact Or.inr ((unescAux_succ prev c cs i).mpr h2)

lemma trimLine_decomp (l : List Char) :
    l = trimLine l ++ (l.reverse.takeWhile isHWS).reverse ∧
      (∀ c ∈ (l.reverse.takeWhile isHWS).reverse, isHWS c = true) := by
  constructor
  · have h := List.takeWhile_append_dropWhile (p := isHWS) (l := l.reverse)
    have h2 := congrArg List.reverse h
    rw [List.reverse_append, List.reverse_reverse] at h2
    exact h2.symm
  · intro c hc
    exact memTakeWhile isHWS l.reverse c (List.mem_reverse.mp hc)

lemma trimLine_max {l t w : List Char} (h : l = t ++ w) (hw : ∀ c ∈ w, isHWS c = true) :
    (trimLine l).length ≤ t.length := by
  subst h
  unfold trimLine
  rw [List.reverse_append]
  rw [dropWhileAppendAll isHWS w.reverse t.reverse (fun x hx => hw x (List.mem_reverse.mp hx))]
  rw [List.length_reverse]
  calc (t.reverse.dropWhile isHWS).length
      ≤ t.reverse.length := lenDropWhileLe _ _
    _ = t.length := List.length_reverse t

lemma subMacroB_step (n : Char) (ns content cs : List Char) (b : Nat) :
    subMacroB n ns content (b + 1) (n :: (ns ++ cs)) =
      content ++ subMacroB n ns content b
        (if cs.take 1 = ['\\'] then cs.drop 1 else cs) := by
  simp [subMacroB, takeLenApp, dropLenApp]

lemma read_tex_file_nomatch (env : Env) (fuel : Nat) (path : List Char)
    (rdOpt : Option (List Char)) {content : List Char}
    (hread : lookupFS (absPath env.cwd path) env.fs = some content)
    (hnm : hasMatch (remove_trailing_whitespace (remove_comments content)) = false) :
    read_tex_file env (fuel + 1) path rdOpt =
      .ok (remove_trailing_whitespace (remove_comments content)) := by
  rw [read_tex_file_succ, hread]
  exact scanSubB_nomatch _ _ _ hnm le_rfl

/-- C1: for every inclusion directive matched at any recursion depth, the
resolver appends `.tex` exactly when the captured filename does not already
end in `.tex`, joins the result onto the root directory into an absolute
path, recursively resolves that file passing the same root directory
forward, and replaces the directive's matched span (everything up to and
including the terminator) with the recursively resolved content, the rest
of the text being processed in the same single pass.  The statement covers
every depth because `read_tex_file` runs exactly this `process_inputs` pass
on every file it reads. -/
theorem spec_c1 (env : Env) (fuel : Nat) (rootDir : List Char) (c : Char)
    (cs fname rest : List Char) (h : matchAt (c :: cs) = some (fname, rest)) :
    process_inputs env fuel rootDir (c :: cs) =
      Res.append
        (read_tex_file env fuel
          (absPath env.cwd (posixJoin rootDir
            (if endsWithTex fname then fname else fname ++ ['.', 't', 'e', 'x'])))
          (some rootDir))
        (process_inputs env fuel rootDir rest) :=
  process_inputs_cons_match env fuel rootDir h

/-- C1 witness: the inclusion step evaluated on the directive
`\input{a} t` against a one-file project. -/
theorem spec_c1_witness :
    matchAt ('\\' :: "input\x7ba\x7d t".data) = some ("a".data, " t".data) ∧
    process_inputs envC1 3 "/r".data ('\\' :: "input\x7ba\x7d t".data) =
      Res.append
        (read_tex_file envC1 3
          (absPath envC1.cwd (posixJoin "/r".data
            (if endsWithTex "a".data then "a".data else "a".data ++ ['.', 't', 'e', 'x'])))
          (some "/r".data))
        (process_inputs envC1 3 "/r".data " t".data) :=
  ⟨by decide,
    spec_c1 envC1 3 "/r".data '\\' "input\x7ba\x7d t".data "a".data " t".data (by decide)⟩

/-- C2: a failed read aborts the whole resolution.  First conjunct: when the
root file itself cannot be read, `read_tex_file` returns the error carrying
that path.  Second conjunct: when the recursive resolution of a matched
directive's target returns a read error (from any depth), the enclosing
substitution pass returns that very error — nothing is retried or
swallowed, and by the shape of `Res.err` no partial text is returned.  The
error payload is the resolved absolute path handed to `open` at the point
of failure. -/
theorem spec_c2 :
    (∀ (env : Env) (fuel : Nat) (path : List Char) (rdOpt : Option (List Char)),
      lookupFS (absPath env.cwd path) env.fs = none →
        read_tex_file env (fuel + 1) path rdOpt = .err path) ∧
    (∀ (env : Env) (fuel : Nat) (rootDir : List Char) (c : Char)
        (cs fname rest p : List Char),
      matchAt (c :: cs) = some (fname, rest) →
      read_tex_file env fuel
          (absPath env.cwd (posixJoin rootDir
            (if endsWithTex fname then fname else fname ++ ['.', 't', 'e', 'x'])))
          (some rootDir) = .err p →
        process_inputs env fuel rootDir (c :: cs) = .err p) := by
  constructor
  · intro env fuel path rdOpt h
    rw [read_tex_file_succ, h]
  · intro env fuel rootDir c cs fname rest p hm herr
    rw [process_inputs_cons_match env fuel rootDir hm, herr]
    rfl

/-- C2 witness: a missing root file and a missing include target, both on an
empty filesystem. -/
theorem spec_c2_witness :
    lookupFS (absPath envC2.cwd "/m.tex".data) envC2.fs = none ∧
    read_tex_file envC2 1 "/m.tex".data none = .err "/m.tex".data ∧
    matchAt ('\\' :: "input\x7ba\x7d ".data) = some ("a".data, " ".data) ∧
    read_tex_file envC2 1
      (absPath envC2.cwd (posixJoin "/r".data
        (if endsWithTex "a".data then "a".data else "a".data ++ ['.', 't', 'e', 'x'])))
      (some "/r".data) = .err "/r/a.tex".data ∧
    process_inputs envC2 1 "/r".data ('\\' :: "input\x7ba\x7d ".data) = .err "/r/a.tex".data := by
  refine ⟨by decide, ?_, by decide, by decide, ?_⟩
  · exact spec_c2.1 envC2 0 "/m.tex".data none (by decide)
  · exact spec_c2.2 envC2 1 "/r".data '\\' "input\x7ba\x7d ".data "a".data " ".data
      "/r/a.tex".data (by decide) (by decide)

/-- C3: `replace_macros` replaces every non-overlapping occurrence of the
exact macro name together with at most one immediately following backslash
by the literal content, consuming the backslash.  The two spec examples are
verified, and the general conjunct shows that at an occurrence of a
nonempty macro name followed by a backslash the replacement consumes the
backslash, emits the content and continues after it. -/
theorem spec_c3 :
    replaceMacrosS "This is document \\handle." [("\\handle", "LDM-nnn")] =
        "This is document LDM-nnn." ∧
    replaceMacrosS "\x7b \\product\\ Test Plan\x7d" [("\\product", "Data Management")] =
        "\x7b Data Management Test Plan\x7d" ∧
    ∀ (n : Char) (ns content rest : List Char),
      subMacro (n :: ns) content ((n :: ns) ++ '\\' :: rest) =
        content ++ subMacro (n :: ns) content rest := by
  refine ⟨by decide, by decide, ?_⟩
  intro n ns content rest
  show subMacroB n ns content ((n :: ns) ++ '\\' :: rest).length ((n :: ns) ++ '\\' :: rest) =
      content ++ subMacroB n ns content rest.length rest
  have hlen : ((n :: ns) ++ '\\' :: rest).length = (ns.length + rest.length + 1) + 1 := by
    simp
    omega
  rw [hlen, show (n :: ns) ++ '\\' :: rest = n :: (ns ++ '\\' :: rest) from rfl]
  rw [subMacroB_step n ns content ('\\' :: rest) (ns.length + rest.length + 1)]
  have htk : ('\\' :: rest).take 1 = ['\\'] := by simp
  rw [if_pos htk, show ('\\' :: rest).drop 1 = rest from rfl]
  rw [subMacroB_irrel n ns content (ns.length + rest.length + 1) rest.length rest
    (by omega) le_rfl]

/-- C4 counterexample: resolving `/r/main.tex`, whose content is
`\input{\input{a}}` with `/r/a.tex` holding `x`, succeeds and returns
`\input{x}` — a text that `input_include_pattern` still matches.  The inner
directive is the leftmost match of the single pass; splicing its resolved
content between the untouched `\input{` prefix and the trailing `}` creates
a new directive that is never re-scanned, so the claimed invariant fails. -/
theorem spec_c4_cex :
    read_tex_file envC4 5 "/r/main.tex".data none = .ok "\\input\x7bx\x7d".data ∧
    hasMatch "\\input\x7bx\x7d".data = true :=
  ⟨by decide, by decide⟩

/-- C4 (amended): the single pass replaces every directive it matched on the
pre-substitution text — whenever the pass succeeds, its output splits into
the recursively resolved content of the leftmost match followed by the
processed remainder — but the output may again contain directive matches
created by the splice; the no-unresolved-directive invariant is guaranteed
only when the root's comment-stripped, whitespace-trimmed content contains
no directive match at all (second conjunct). -/
theorem spec_c4 :
    (∀ (env : Env) (fuel : Nat) (rootDir : List Char) (c : Char)
        (cs fname rest out : List Char),
      matchAt (c :: cs) = some (fname, rest) →
      process_inputs env fuel rootDir (c :: cs) = .ok out →
        ∃ s t, out = s ++ t ∧
          read_tex_file env fuel
            (absPath env.cwd (posixJoin rootDir
              (if endsWithTex fname then fname else fname ++ ['.', 't', 'e', 'x'])))
            (some rootDir) = .ok s ∧
          process_inputs env fuel rootDir rest = .ok t) ∧
    (∀ (env : Env) (fuel : Nat) (path : List Char) (rdOpt : Option (List Char))
        (content s : List Char),
      lookupFS (absPath env.cwd path) env.fs = some content →
      hasMatch (remove_trailing_whitespace (remove_comments content)) = false →
      read_tex_file env (fuel + 1) path rdOpt = .ok s → hasMatch s = false) := by
  constructor
  · intro env fuel rootDir c cs fname rest out hm hok
    rw [process_inputs_cons_match env fuel rootDir hm] at hok
    obtain ⟨s, t, ha, hb, hc2⟩ := resAppendEqOk hok
    exact ⟨s, t, hc2, ha, hb⟩
  · intro env fuel path rdOpt content s hread hnm hok
    rw [read_tex_file_nomatch env fuel path rdOpt hread hnm] at hok
    have hs : remove_trailing_whitespace (remove_comments content) = s := by
      injection hok
    rw [← hs]
    exact hnm

/-- C4 witness: the replacement split evaluated on `\input{b} z` against a
one-file project. -/
theorem spec_c4_witness :
    matchAt ('\\' :: "input\x7bb\x7d z".data) = some ("b".data, " z".data) ∧
    process_inputs envC4w 2 "/w".data ('\\' :: "input\x7bb\x7d z".data) = .ok "Y z".data ∧
    ∃ s t, "Y z".data = s ++ t ∧
      read_tex_file envC4w 2
        (absPath envC4w.cwd (posixJoin "/w".data
          (if endsWithTex "b".data then "b".data else "b".data ++ ['.', 't', 'e', 'x'])))
        (some "/w".data) = .ok s ∧
      process_inputs envC4w 2 "/w".data " z".data = .ok t :=
  ⟨by decide, by decide,
    spec_c4.1 envC4w 2 "/w".data '\\' "input\x7bb\x7d z".data "b".data " z".data "Y z".data
      (by decide) (by decide)⟩

/-- C5: resolving a readable root file whose comment-stripped,
whitespace-trimmed content contains no inclusion directive returns exactly
that processed content. -/
theorem spec_c5 (env : Env) (fuel : Nat) (path : List Char) (rdOpt : Option (List Char))
    (content : List Char)
    (hread : lookupFS (absPath env.cwd path) env.fs = some content)
    (hnm : hasMatch (remove_trailing_whitespace (remove_comments content)) = false) :
    read_tex_file env (fuel + 1) path rdOpt =
      .ok (remove_trailing_whitespace (remove_comments content)) :=
  read_tex_file_nomatch env fuel path rdOpt hread hnm

/-- C5 witness: the round trip evaluated on a root file with a comment and
trailing whitespace but no directive. -/
theorem spec_c5_witness :
    lookupFS (absPath envC5.cwd "/m.tex".data) envC5.fs = some "hi % there".data ∧
    hasMatch (remove_trailing_whitespace (remove_comments "hi % there".data)) = false ∧
    read_tex_file envC5 1 "/m.tex".data none =
      .ok (remove_trailing_whitespace (remove_comments "hi % there".data)) :=
  ⟨by decide, by decide,
    spec_c5 envC5 0 "/m.tex".data none "hi % there".data (by decide) (by decide)⟩

/-- C6: the comment stripper works per line, leaving line terminators intact
(third conjunct, where joining with `'\n'` and mapping the per-line strip
commute with the whole-buffer function); on each line it returns exactly
the prefix before the first unescaped `'%'` — so every unescaped marker and
everything after it disappears while escaped markers in the kept prefix are
untouched (fourth conjunct); the spec's example holds (first conjunct); and
on text without any `'%'` it is the identity (second conjunct). -/
theorem spec_c6 :
    removeCommentsS "a \\% b % c" = "a \\% b " ∧
    (∀ s : String, '%' ∉ s.data → removeCommentsS s = s) ∧
    (∀ ls : List (List Char), ls ≠ [] → (∀ l ∈ ls, '\n' ∉ l) →
      remove_comments (joinWith '\n' ls) = joinWith '\n' (ls.map stripLine)) ∧
    (∀ l : List Char, ∃ i : Nat, i ≤ l.length ∧ stripLine l = l.take i ∧
      (∀ j, j < i → ¬ unescapedPct l j) ∧ (i = l.length ∨ unescapedPct l i)) := by
  refine ⟨by decide, ?_, ?_, ?_⟩
  · intro s h
    unfold removeCommentsS
    rw [remove_comments_no_pct h]
  · intro ls hne h
    unfold remove_comments
    rw [splitOnC_joinWith '\n' ls hne h]
  · intro l
    obtain ⟨i, h1, h2, h3, h4⟩ := stripAux_char l none
    refine ⟨i, h1, h2, ?_, ?_⟩
    · intro j hj hu
      exact h3 j hj ((unescAux_none_iff l j).mpr hu)
    · rcases h4 with h | h
      · exact Or.inl h
      · exact Or.inr ((unescAux_none_iff l i).mp h)

/-- C6 witness: the identity conjunct evaluated on marker-free text. -/
theorem spec_c6_witness :
    ('%' ∉ "abc".data) ∧ removeCommentsS "abc" = "abc" :=
  ⟨by decide, spec_c6.2.1 "abc" (by decide)⟩

/-- C7: the whitespace trimmer works per line, leaving line terminators
intact (first conjunct); on each line the kept part is a prefix of the line
whose removed suffix consists only of spaces and tabs, and the removal is
maximal — any split of the line into a prefix and an all-space/tab suffix
keeps at least as many characters as the trimmer does — so exactly the
maximal trailing run goes and leading and interior characters are preserved
byte for byte (second conjunct). -/
theorem spec_c7 :
    (∀ ls : List (List Char), ls ≠ [] → (∀ l ∈ ls, '\n' ∉ l) →
      remove_trailing_whitespace (joinWith '\n' ls) = joinWith '\n' (ls.map trimLine)) ∧
    (∀ l : List Char,
      (∃ ws, l = trimLine l ++ ws ∧ ∀ c ∈ ws, c = ' ' ∨ c = '\t') ∧
      (∀ t w, l = t ++ w → (∀ c ∈ w, c = ' ' ∨ c = '\t') →
        (trimLine l).length ≤ t.length)) := by
  constructor
  · intro ls hne h
    unfold remove_trailing_whitespace
    rw [splitOnC_joinWith '\n' ls hne h]
  · intro l
    constructor
    · refine ⟨(l.reverse.takeWhile isHWS).reverse, (trimLine_decomp l).1, ?_⟩
      intro c hc
      have hh := (trimLine_decomp l).2 c hc
      simpa [isHWS] using hh
    · intro t w hw hall
      exact trimLine_max hw (fun c hc => by rcases hall c hc with h | h <;> simp [isHWS, h])

/-- C7 witness: the per-line conjunct evaluated on two lines with trailing
whitespace. -/
theorem spec_c7_witness :
    (([ "a ".data, " b\t".data ] : List (List Char)) ≠ [] ∧
      (∀ l ∈ ([ "a ".data, " b\t".data ] : List (List Char)), '\n' ∉ l)) ∧
    remove_trailing_whitespace (joinWith '\n' [ "a ".data, " b\t".data ]) =
      joinWith '\n' ([ "a ".data, " b\t".data ].map trimLine) :=
  ⟨⟨by decide, by decide⟩, spec_c7.1 [ "a ".data, " b\t".data ] (by decide) (by decide)⟩

/-- C8: on a text in which no macro name from the table occurs as a
substring, `replace_macros` is the identity, and hence running it twice
with the same table on such text equals running it once. -/
theorem spec_c8 (macros : List (String × String)) (text : String)
    (h : ∀ p ∈ macros, isSubstr p.1.data text.data = false) :
    replaceMacrosS text macros = text ∧
      replaceMacrosS (replaceMacrosS text macros) macros = replaceMacrosS text macros := by
  have hlist : ∀ q ∈ macros.map (fun p => (p.1.data, p.2.data)), isSubstr q.1 text.data = false := by
    intro q hq
    rcases List.mem_map.mp hq with ⟨p, hp, rfl⟩
    exact h p hp
  have h1 : replaceMacrosS text macros = text := by
    unfold replaceMacrosS
    rw [replace_macros_not_occur _ _ hlist]
  refine ⟨h1, ?_⟩
  rw [h1]
  exact h1

/-- C8 witness: idempotence evaluated on a table whose macro name does not
occur in the text. -/
theorem spec_c8_witness :
    (∀ p ∈ [("\\a", "B")], isSubstr p.1.data "hello".data = false) ∧
    (replaceMacrosS "hello" [("\\a", "B")] = "hello" ∧
      replaceMacrosS (replaceMacrosS "hello" [("\\a", "B")]) [("\\a", "B")] =
        replaceMacrosS "hello" [("\\a", "B")]) :=
  ⟨by decide, spec_c8 [("\\a", "B")] "hello" (by decide)⟩

/-- C9: `replace_macros` is total by construction (it is a Lean function
into strings, so it returns a string on every input, with no error
outcome); with an empty table it returns the input unchanged (first
conjunct), and replacement contents containing backslashes are inserted
literally (second conjunct, exercising the non-interpreting replacement). -/
theorem spec_c9 :
    (∀ t : String, replaceMacrosS t [] = t) ∧
    replaceMacrosS "x \\a y" [("\\a", "\\b")] = "x \\b y" := by
  refine ⟨?_, by decide⟩
  intro t
  rfl

/-- C10: the substitution imposes no boundary after the macro name: at an
occurrence of a nonempty macro name followed by any character `c`, the name
is replaced — `c` itself is consumed exactly when it is a backslash and is
otherwise left to the continuation, in particular when `c` is a word
character extending the name into a longer command; the second conjunct is
the concrete instance where `\h` is substituted inside `\hb`. -/
theorem spec_c10 :
    (∀ (n : Char) (ns content : List Char) (c : Char) (rest : List Char),
      subMacro (n :: ns) content ((n :: ns) ++ c :: rest) =
        content ++ (if c = '\\' then subMacro (n :: ns) content rest
          else subMacro (n :: ns) content (c :: rest))) ∧
    replaceMacrosS "\\hb" [("\\h", "X")] = "Xb" := by
  refine ⟨?_, by decide⟩
  intro n ns content c rest
  show subMacroB n ns content ((n :: ns) ++ c :: rest).length ((n :: ns) ++ c :: rest) =
      content ++ (if c = '\\' then subMacroB n ns content rest.length rest
        else subMacroB n ns content (c :: rest).length (c :: rest))
  have hlen : ((n :: ns) ++ c :: rest).length = (ns.length + rest.length + 1) + 1 := by
    simp
    omega
  rw [hlen, show (n :: ns) ++ c :: rest = n :: (ns ++ c :: rest) from rfl]
  rw [subMacroB_step n ns content (c :: rest) (ns.length + rest.length + 1)]
  by_cases hc : c = '\\'
  · subst hc
    have htk : ('\\' :: rest).take 1 = ['\\'] := by simp
    rw [if_pos htk, if_pos rfl, show ('\\' :: rest).drop 1 = rest from rfl]
    rw [subMacroB_irrel n ns content (ns.length + rest.length + 1) rest.length rest
      (by omega) le_rfl]
  · have htk : ¬ ((c :: rest).take 1 = ['\\']) := by
      simp only [List.take_succ_cons, List.take_zero]
      intro heq
      exact hc (by injection heq)
    rw [if_neg htk, if_neg hc]
    rw [subMacroB_irrel n ns content (ns.length + rest.length + 1) (c :: rest).length
      (c :: rest) (by simp only [List.length_cons]; omega) le_rfl]
